import Mathlib

/-!
Verification of the Astikar Portfolio Manager Pro rebalancing engine
(`Astikar_Portfolio_Manager_Pro.py`).

The source is a single-file periodic rebalancer: it scores a universe of
symbols by momentum (`select_stocks`), and on Fridays reconciles the current
portfolio against the selected target set (`main`): held symbols not selected
are sold in full (brokerage deducted from proceeds), new selected symbols are
bought with `int(allocation / price)` shares where
`allocation = capital * (1 - MIN_CASH_BUFFER) / MAX_STOCKS`, a buy executing
only when shares are positive and cash covers notional plus brokerage.
NAV (invested value plus cash) is appended to a history and carries over as
`capital` of the next run.

The embedding below translates the decision logic verbatim:
- prices are exact rationals (the Python floats' ideal semantics; NaN is not
  representable — a symbol absent from the latest-price dict is `none`);
- the portfolio dict is an insertion-ordered association list;
- Python `int()` truncation toward zero is `pyInt`;
- the sell loop and buy loop of `main` are `sellPass` and `buyPass`;
- one full `main` cycle (given the Friday flag, the already-selected target
  list, the latest-price map and the carried-over capital) is `runCycle`, and
  `runWithHistory` adds the NAV-history handling around it.
-/

namespace Astikar

abbrev Sym := String

/-- One row of the trades log (`trades_df`): date column omitted (it is the
same constant for a run), the rest as written by `main`:
`[today, symbol, action, price, shares, cost]` where for a SELL `cost` is the
brokerage on the proceeds and for a BUY the brokerage on the notional. -/
structure Trade where
  symbol : Sym
  action : String
  price : ℚ
  shares : ℤ
  cost : ℚ
deriving Repr, DecidableEq

/-- `INITIAL_CAPITAL = 50000`. -/
def INITIAL_CAPITAL : ℚ := 50000

/-- `MAX_STOCKS = 5`. -/
def MAX_STOCKS : ℕ := 5

/-- `BROKERAGE_RATE = 0.001`. -/
def BROKERAGE_RATE : ℚ := 1 / 1000

/-- `MIN_CASH_BUFFER = 0.10`. -/
def MIN_CASH_BUFFER : ℚ := 1 / 10

/-- Python `int(x)` on a real number: truncation toward zero. -/
def pyInt (x : ℚ) : ℤ := if 0 ≤ x then ⌊x⌋ else ⌈x⌉

/-- `series.pct_change(n).iloc[-1]` on a gap-free series given as a
chronological list: `last / series[len - 1 - n] - 1`. -/
def pctChangeLast (n : ℕ) (close : List ℚ) : ℚ :=
  close.getD (close.length - 1) 0 / close.getD (close.length - 1 - n) 0 - 1

/-- `series.rolling(w).mean().iloc[-1]`: mean of the trailing `w` entries. -/
def rollingMeanLast (w : ℕ) (close : List ℚ) : ℚ :=
  (close.drop (close.length - w)).sum / (w : ℚ)

/-- `calculate_momentum`: 63-day and 126-day percent change, last row. -/
def calculate_momentum (close : List ℚ) : ℚ × ℚ :=
  (pctChangeLast 63 close, pctChangeLast 126 close)

/-- `calculate_dma`: trailing 50-day and 200-day simple moving averages. -/
def calculate_dma (close : List ℚ) : ℚ × ℚ :=
  (rollingMeanLast 50 close, rollingMeanLast 200 close)

/-- The per-symbol body of the `select_stocks` loop, for one dropna'd close
series: `none` when the symbol is skipped (fewer than 200 rows, or the
trend/momentum filter fails), otherwise the composite score `m3 + m6`. -/
def scoreStock (close : List ℚ) : Option ℚ :=
  if close.length < 200 then none
  else
    let m := calculate_momentum close
    let d := calculate_dma close
    let price := close.getD (close.length - 1) 0
    if price > d.2 ∧ d.1 > d.2 ∧ m.1 > 0 ∧ m.2 > 0 then some (m.1 + m.2)
    else none

/-- The `selected` list built by the `select_stocks` loop before sorting:
one `(symbol, score)` pair per universe symbol whose (dropna'd) close series
is available and passes `scoreStock`.  A symbol whose data is absent
(`none`, the `except: continue` path) or filtered out contributes nothing. -/
def scoredList (data : List (Sym × Option (List ℚ))) : List (Sym × ℚ) :=
  data.filterMap fun p =>
    match p.2 with
    | none => none
    | some close => (scoreStock close).map fun sc => (p.1, sc)

/-- Stable descending insertion by score, matching Python's stable
`list.sort(key=lambda x: x[1], reverse=True)`: an element moves past another
only when its score is strictly smaller. -/
def insertDesc (x : Sym × ℚ) : List (Sym × ℚ) → List (Sym × ℚ)
  | [] => [x]
  | y :: ys => if x.2 < y.2 then y :: insertDesc x ys else x :: y :: ys

/-- Stable descending sort by score (insertion sort). -/
def sortDesc (l : List (Sym × ℚ)) : List (Sym × ℚ) :=
  l.foldr insertDesc []

/-- `select_stocks`: score the universe, sort descending by score, keep the
top `MAX_STOCKS` symbols. -/
def select_stocks (data : List (Sym × Option (List ℚ))) : List Sym :=
  ((sortDesc (scoredList data)).take MAX_STOCKS).map Prod.fst

/-- Dict lookup (`portfolio[symbol]` / `symbol in portfolio`) on the
insertion-ordered association list representing the portfolio dict. -/
def lookupSym : List (Sym × ℤ) → Sym → Option ℤ
  | [], _ => none
  | (k, v) :: rest, s => if k = s then some v else lookupSym rest s

/-- `calculate_portfolio_value`: sum of `shares * price` over held symbols
that are present in the latest-price dict (absent symbols contribute 0). -/
def calculate_portfolio_value (portfolio : List (Sym × ℤ)) (prices : Sym → Option ℚ) : ℚ :=
  match portfolio with
  | [] => 0
  | (s, sh) :: rest =>
    (match prices s with
     | some p => (sh : ℚ) * p
     | none => 0) + calculate_portfolio_value rest prices

/-- The SELL loop of `main`: every held symbol not in `selected` is sold in
full at `latest_prices.get(symbol, 0)`, cash is credited with
`proceeds - proceeds * BROKERAGE_RATE`, a SELL row is appended to the trades
log and the symbol is deleted from the portfolio.  Returns the surviving
portfolio, the updated cash and the SELL trades in iteration order. -/
def sellPass (selected : List Sym) (prices : Sym → Option ℚ) :
    List (Sym × ℤ) → ℚ → List (Sym × ℤ) × ℚ × List Trade
  | [], cash => ([], cash, [])
  | (s, sh) :: rest, cash =>
    if s ∈ selected then
      let r := sellPass selected prices rest cash
      ((s, sh) :: r.1, r.2.1, r.2.2)
    else
      let price := (prices s).getD 0
      let proceeds := (sh : ℚ) * price
      let cost := proceeds * BROKERAGE_RATE
      let r := sellPass selected prices rest (cash + (proceeds - cost))
      (r.1, r.2.1, { symbol := s, action := "SELL", price := price, shares := sh, cost := cost } :: r.2.2)

/-- The BUY loop of `main`: for each selected symbol not already held, with
`price = latest_prices.get(symbol, 0)`, skip when `price == 0`, otherwise
`shares = int(allocation / price)`, `cost = shares * price * BROKERAGE_RATE`,
`total_cost = shares * price + cost`; the buy executes only when
`shares > 0 and cash >= total_cost`, debiting cash, inserting the position
and appending a BUY row. -/
def buyPass (prices : Sym → Option ℚ) (allocation : ℚ) :
    List Sym → List (Sym × ℤ) → ℚ → List (Sym × ℤ) × ℚ × List Trade
  | [], book, cash => (book, cash, [])
  | s :: rest, book, cash =>
    match lookupSym book s with
    | some _ => buyPass prices allocation rest book cash
    | none =>
      let price := (prices s).getD 0
      if price = 0 then buyPass prices allocation rest book cash
      else
        let shares := pyInt (allocation / price)
        let cost := (shares : ℚ) * price * BROKERAGE_RATE
        let totalCost := (shares : ℚ) * price + cost
        if 0 < shares ∧ totalCost ≤ cash then
          let r := buyPass prices allocation rest (book ++ [(s, shares)]) (cash - totalCost)
          (r.1, r.2.1, { symbol := s, action := "BUY", price := price, shares := shares, cost := cost } :: r.2.2)
        else buyPass prices allocation rest book cash

/-- The observable outcome of one `main` cycle: final portfolio, final cash,
the NAV appended to `nav_history.csv`, and the trade rows appended to the
trades log, in order. -/
structure RunResult where
  portfolio : List (Sym × ℤ)
  cash : ℚ
  nav : ℚ
  trades : List Trade
deriving Repr, DecidableEq

/-- One `main` cycle after data loading: `capital` is the carried-over NAV,
`cash = capital - invested_value`; on a Friday the sell pass runs, then the
buy pass with `allocation = capital * (1 - MIN_CASH_BUFFER) / MAX_STOCKS`;
otherwise nothing trades.  The NAV is recomputed from the final portfolio
and cash. -/
def runCycle (isFriday : Bool) (selected : List Sym) (book : List (Sym × ℤ))
    (prices : Sym → Option ℚ) (capital : ℚ) : RunResult :=
  let invested := calculate_portfolio_value book prices
  let cash := capital - invested
  if isFriday then
    let s := sellPass selected prices book cash
    let allocation := capital * (1 - MIN_CASH_BUFFER) / (MAX_STOCKS : ℚ)
    let b := buyPass prices allocation selected s.1 s.2.1
    { portfolio := b.1, cash := b.2.1,
      nav := calculate_portfolio_value b.1 prices + b.2.1,
      trades := s.2.2 ++ b.2.2 }
  else
    { portfolio := book, cash := cash,
      nav := calculate_portfolio_value book prices + cash,
      trades := [] }

/-- Capital for a run: `INITIAL_CAPITAL` when the NAV history is empty,
otherwise the last recorded NAV (`nav_df.iloc[-1]["NAV"]`). -/
def capitalOf (navHistory : List ℚ) : ℚ :=
  match navHistory.getLast? with
  | none => INITIAL_CAPITAL
  | some v => v

/-- One `main` cycle together with its NAV-history update: the new NAV is
appended unconditionally at the end of the run. -/
def runWithHistory (isFriday : Bool) (selected : List Sym) (book : List (Sym × ℤ))
    (prices : Sym → Option ℚ) (navHistory : List ℚ) : RunResult × List ℚ :=
  let r := runCycle isFriday selected book prices (capitalOf navHistory)
  (r, navHistory ++ [r.nav])

/-- Total brokerage fees of a trade list (sum of the `Cost` column). -/
def totalFees (ts : List Trade) : ℚ := (ts.map fun t => t.cost).sum

/-- Cash spent by the BUY rows of a trade list, brokerage included. -/
def buySpend (ts : List Trade) : ℚ :=
  ((ts.filter fun t => t.action == "BUY").map fun t => (t.shares : ℚ) * t.price + t.cost).sum

/-- Cash credited by the SELL rows of a trade list, net of brokerage. -/
def sellProceedsNet (ts : List Trade) : ℚ :=
  ((ts.filter fun t => t.action == "SELL").map fun t => (t.shares : ℚ) * t.price - t.cost).sum

/-- Sum of the notional values (`shares * price`) of all trades in a list. -/
def totalNotional (ts : List Trade) : ℚ :=
  (ts.map fun t => (t.shares : ℚ) * t.price).sum

/-- Sum of the notional values of the BUY trades only. -/
def buyNotionalTotal (ts : List Trade) : ℚ :=
  ((ts.filter fun t => t.action == "BUY").map fun t => (t.shares : ℚ) * t.price).sum



/-- A 200-day series: 199 flat days at `a` then a last close of `b`; used to
instantiate universal results on concrete data. -/
def flatSeries (a b : ℚ) : List ℚ := List.replicate 199 a ++ [b]

set_option maxRecDepth 4000 in
theorem scoreStock_flatSeries (a b : ℚ) :
    scoreStock (flatSeries a b) =
      if b > (199 * a + b) / 200 ∧ (49 * a + b) / 50 > (199 * a + b) / 200 ∧
          b / a - 1 > 0 ∧ b / a - 1 > 0
      then some (b / a - 1 + (b / a - 1)) else none := by
  have hlen : (flatSeries a b).length = 200 := by
    simp [flatSeries]
  simp only [scoreStock, flatSeries, calculate_momentum, calculate_dma, pctChangeLast,
    rollingMeanLast, List.getD, hlen]
  norm_num [List.getElem?_append, List.getElem?_replicate, List.getElem_append,
    List.getElem_replicate, List.drop_append_of_le_length,
    List.sum_append, List.sum_replicate, List.drop_replicate, nsmul_eq_mul]



theorem cpv_eq_sum (book : List (Sym × ℤ)) (prices : Sym → Option ℚ) :
    calculate_portfolio_value book prices
      = (book.map fun p => (p.2 : ℚ) * ((prices p.1).getD 0)).sum := by
  induction book with
  | nil => simp [calculate_portfolio_value]
  | cons hd tl ih =>
    obtain ⟨s, sh⟩ := hd
    cases h : prices s <;> simp [calculate_portfolio_value, h, ih]

theorem sellPass_book (selected : List Sym) (prices : Sym → Option ℚ)
    (book : List (Sym × ℤ)) (cash : ℚ) :
    (sellPass selected prices book cash).1
      = book.filter fun p => decide (p.1 ∈ selected) := by
  induction book generalizing cash with
  | nil => simp [sellPass]
  | cons hd tl ih =>
    obtain ⟨s, sh⟩ := hd
    by_cases hs : s ∈ selected <;> simp [sellPass, hs, ih]

theorem sellPass_trades (selected : List Sym) (prices : Sym → Option ℚ)
    (book : List (Sym × ℤ)) (cash : ℚ) :
    (sellPass selected prices book cash).2.2
      = (book.filter fun p => decide (¬ p.1 ∈ selected)).map fun p =>
          { symbol := p.1, action := "SELL", price := (prices p.1).getD 0, shares := p.2,
            cost := (p.2 : ℚ) * ((prices p.1).getD 0) * BROKERAGE_RATE } := by
  induction book generalizing cash with
  | nil => simp [sellPass]
  | cons hd tl ih =>
    obtain ⟨s, sh⟩ := hd
    by_cases hs : s ∈ selected <;> simp [sellPass, hs, ih]

theorem sellPass_cash (selected : List Sym) (prices : Sym → Option ℚ)
    (book : List (Sym × ℤ)) (cash : ℚ) :
    (sellPass selected prices book cash).2.1
      = cash + ((book.filter fun p => decide (¬ p.1 ∈ selected)).map fun p =>
          (p.2 : ℚ) * ((prices p.1).getD 0) * (1 - BROKERAGE_RATE)).sum := by
  induction book generalizing cash with
  | nil => simp [sellPass]
  | cons hd tl ih =>
    obtain ⟨s, sh⟩ := hd
    by_cases hs : s ∈ selected
    · simp [sellPass, hs, ih]
    · simp [sellPass, hs, ih]
      ring



theorem pyInt_le {x : ℚ} (h : 0 ≤ x) : (pyInt x : ℚ) ≤ x := by
  simp only [pyInt, if_pos h]
  exact Int.floor_le x

theorem pyInt_pos_facts {x : ℚ} (h : 0 < pyInt x) : 0 ≤ x ∧ (pyInt x : ℚ) ≤ x := by
  by_cases hx : 0 ≤ x
  · exact ⟨hx, pyInt_le hx⟩
  · exfalso
    have hx2 : x ≤ 0 := le_of_not_le hx
    have : pyInt x ≤ 0 := by
      simp only [pyInt, if_neg hx]
      exact Int.ceil_le.2 (by exact_mod_cast hx2)
    omega

theorem buy_notional_le {allocation price : ℚ} (hal : 0 ≤ allocation) (hp : price ≠ 0)
    (hpos : 0 < pyInt (allocation / price)) :
    (pyInt (allocation / price) : ℚ) * price ≤ allocation := by
  obtain ⟨hq, hle⟩ := pyInt_pos_facts hpos
  have hq1 : (1 : ℚ) ≤ (pyInt (allocation / price) : ℚ) := by exact_mod_cast hpos
  rcases lt_trichotomy price 0 with hneg | hzero | hposp
  · exfalso
    have : allocation / price ≤ 0 := div_nonpos_of_nonneg_of_nonpos hal hneg.le
    linarith
  · exact absurd hzero hp
  · calc (pyInt (allocation / price) : ℚ) * price ≤ (allocation / price) * price := by
          exact mul_le_mul_of_nonneg_right hle hposp.le

      _ = allocation := div_mul_cancel₀ allocation hp



theorem buyPass_trades_facts (prices : Sym → Option ℚ) (allocation : ℚ) (syms : List Sym) :
    ∀ (book : List (Sym × ℤ)) (cash : ℚ),
      ∀ t ∈ (buyPass prices allocation syms book cash).2.2,
        t.action = "BUY" ∧ 0 < t.shares ∧ t.cost = (t.shares : ℚ) * t.price * BROKERAGE_RATE ∧
          (0 ≤ allocation → (t.shares : ℚ) * t.price ≤ allocation) := by
  induction syms with
  | nil => intro book cash t ht; simp [buyPass] at ht
  | cons s rest ih =>
    intro book cash t ht
    rw [buyPass] at ht
    cases hl : lookupSym book s with
    | some v => rw [hl] at ht; exact ih book cash t ht
    | none =>
      rw [hl] at ht
      simp only at ht
      by_cases hp : (prices s).getD 0 = 0
      · rw [if_pos hp] at ht
        exact ih book cash t ht
      · rw [if_neg hp] at ht
        by_cases hc : 0 < pyInt (allocation / (prices s).getD 0) ∧
            (pyInt (allocation / (prices s).getD 0) : ℚ) * (prices s).getD 0 +
              (pyInt (allocation / (prices s).getD 0) : ℚ) * (prices s).getD 0 * BROKERAGE_RATE ≤ cash
        · rw [if_pos hc] at ht
          simp only [List.mem_cons] at ht
          rcases ht with ht | ht
          · subst ht
            refine ⟨rfl, hc.1, rfl, fun hal => ?_⟩
            exact buy_notional_le hal hp hc.1
          · exact ih _ _ t ht
        · rw [if_neg hc] at ht
          exact ih book cash t ht



theorem buyPass_cash (prices : Sym → Option ℚ) (allocation : ℚ) (syms : List Sym) :
    ∀ (book : List (Sym × ℤ)) (cash : ℚ),
      (buyPass prices allocation syms book cash).2.1
        = cash - ((buyPass prices allocation syms book cash).2.2.map fun t =>
            (t.shares : ℚ) * t.price + t.cost).sum := by
  induction syms with
  | nil => intro book cash; simp [buyPass]
  | cons s rest ih =>
    intro book cash
    rw [buyPass]
    cases hl : lookupSym book s with
    | some v => exact ih book cash
    | none =>
      simp only
      by_cases hp : (prices s).getD 0 = 0
      · rw [if_pos hp]
        exact ih book cash
      · rw [if_neg hp]
        by_cases hc : 0 < pyInt (allocation / (prices s).getD 0) ∧
            (pyInt (allocation / (prices s).getD 0) : ℚ) * (prices s).getD 0 +
              (pyInt (allocation / (prices s).getD 0) : ℚ) * (prices s).getD 0 * BROKERAGE_RATE ≤ cash
        · rw [if_pos hc]
          simp only [List.map_cons, List.sum_cons]
          rw [ih]
          ring
        · rw [if_neg hc]
          exact ih book cash

theorem buyPass_invested (prices : Sym → Option ℚ) (allocation : ℚ) (syms : List Sym) :
    ∀ (book : List (Sym × ℤ)) (cash : ℚ),
      calculate_portfolio_value (buyPass prices allocation syms book cash).1 prices
        = calculate_portfolio_value book prices
          + ((buyPass prices allocation syms book cash).2.2.map fun t =>
              (t.shares : ℚ) * t.price).sum := by
  induction syms with
  | nil => intro book cash; simp [buyPass]
  | cons s rest ih =>
    intro book cash
    rw [buyPass]
    cases hl : lookupSym book s with
    | some v => exact ih book cash
    | none =>
      simp only
      by_cases hp : (prices s).getD 0 = 0
      · rw [if_pos hp]
        exact ih book cash
      · rw [if_neg hp]
        by_cases hc : 0 < pyInt (allocation / (prices s).getD 0) ∧
            (pyInt (allocation / (prices s).getD 0) : ℚ) * (prices s).getD 0 +
              (pyInt (allocation / (prices s).getD 0) : ℚ) * (prices s).getD 0 * BROKERAGE_RATE ≤ cash
        · rw [if_pos hc]
          simp only [List.map_cons, List.sum_cons]
          rw [ih]
          have happ : calculate_portfolio_value (book ++ [(s, pyInt (allocation / (prices s).getD 0))]) prices
              = calculate_portfolio_value book prices
                + (pyInt (allocation / (prices s).getD 0) : ℚ) * (prices s).getD 0 := by
            rw [cpv_eq_sum, cpv_eq_sum, List.map_append, List.sum_append]
            simp
          rw [happ]
          ring
        · rw [if_neg hc]
          exact ih book cash



theorem buyPass_length (prices : Sym → Option ℚ) (allocation : ℚ) (syms : List Sym) :
    ∀ (book : List (Sym × ℤ)) (cash : ℚ),
      (buyPass prices allocation syms book cash).2.2.length ≤ syms.length := by
  induction syms with
  | nil => intro book cash; simp [buyPass]
  | cons s rest ih =>
    intro book cash
    rw [buyPass]
    cases hl : lookupSym book s with
    | some v => exact (ih book cash).trans (Nat.le_succ _)
    | none =>
      simp only
      by_cases hp : (prices s).getD 0 = 0
      · rw [if_pos hp]
        exact (ih book cash).trans (Nat.le_succ _)
      · rw [if_neg hp]
        by_cases hc : 0 < pyInt (allocation / (prices s).getD 0) ∧
            (pyInt (allocation / (prices s).getD 0) : ℚ) * (prices s).getD 0 +
              (pyInt (allocation / (prices s).getD 0) : ℚ) * (prices s).getD 0 * BROKERAGE_RATE ≤ cash
        · rw [if_pos hc]
          simpa using ih _ _
        · rw [if_neg hc]
          exact (ih book cash).trans (Nat.le_succ _)

theorem lookupSym_append_some {book : List (Sym × ℤ)} {s : Sym} {v : ℤ}
    (h : lookupSym book s = some v) (l : List (Sym × ℤ)) :
    lookupSym (book ++ l) s = some v := by
  induction book with
  | nil => simp [lookupSym] at h
  | cons hd tl ih =>
    obtain ⟨k, w⟩ := hd
    by_cases hk : k = s
    · simp only [lookupSym, if_pos hk] at h ⊢
      exact h
    · simp only [List.cons_append, lookupSym, if_neg hk] at h ⊢
      exact ih h

theorem buyPass_held (prices : Sym → Option ℚ) (allocation : ℚ) (syms : List Sym) :
    ∀ (book : List (Sym × ℤ)) (cash : ℚ) (s : Sym) (v : ℤ),
      lookupSym book s = some v →
        lookupSym (buyPass prices allocation syms book cash).1 s = some v ∧
          ∀ t ∈ (buyPass prices allocation syms book cash).2.2, t.symbol ≠ s := by
  induction syms with
  | nil => intro book cash s v h; simpa [buyPass] using h
  | cons x rest ih =>
    intro book cash s v h
    rw [buyPass]
    cases hl : lookupSym book x with
    | some w => exact ih book cash s v h
    | none =>
      simp only
      by_cases hp : (prices x).getD 0 = 0
      · rw [if_pos hp]
        exact ih book cash s v h
      · rw [if_neg hp]
        by_cases hc : 0 < pyInt (allocation / (prices x).getD 0) ∧
            (pyInt (allocation / (prices x).getD 0) : ℚ) * (prices x).getD 0 +
              (pyInt (allocation / (prices x).getD 0) : ℚ) * (prices x).getD 0 * BROKERAGE_RATE ≤ cash
        · rw [if_pos hc]
          have hxs : x ≠ s := by
            intro he
            rw [he, h] at hl
            exact Option.noConfusion hl
          have h2 : lookupSym (book ++ [(x, pyInt (allocation / (prices x).getD 0))]) s = some v :=
            lookupSym_append_some h _
          obtain ⟨ha, hb⟩ := ih _ (cash - _) s v h2
          refine ⟨ha, ?_⟩
          intro t ht
          simp only [List.mem_cons] at ht
          rcases ht with ht | ht
          · subst ht
            exact hxs
          · exact hb t ht
        · rw [if_neg hc]
          exact ih book cash s v h



theorem buyPass_book_mem (prices : Sym → Option ℚ) (allocation : ℚ) (syms : List Sym) :
    ∀ (book : List (Sym × ℤ)) (cash : ℚ),
      ∀ p ∈ (buyPass prices allocation syms book cash).1, p ∈ book ∨ p.1 ∈ syms := by
  induction syms with
  | nil => intro book cash p hp; rw [buyPass] at hp; exact Or.inl hp
  | cons x rest ih =>
    intro book cash p hp
    rw [buyPass] at hp
    cases hl : lookupSym book x with
    | some w =>
      rw [hl] at hp
      rcases ih book cash p hp with h | h
      · exact Or.inl h
      · exact Or.inr (List.mem_cons_of_mem _ h)
    | none =>
      rw [hl] at hp
      simp only at hp
      by_cases hpr : (prices x).getD 0 = 0
      · rw [if_pos hpr] at hp
        rcases ih book cash p hp with h | h
        · exact Or.inl h
        · exact Or.inr (List.mem_cons_of_mem _ h)
      · rw [if_neg hpr] at hp
        by_cases hc : 0 < pyInt (allocation / (prices x).getD 0) ∧
            (pyInt (allocation / (prices x).getD 0) : ℚ) * (prices x).getD 0 +
              (pyInt (allocation / (prices x).getD 0) : ℚ) * (prices x).getD 0 * BROKERAGE_RATE ≤ cash
        · rw [if_pos hc] at hp
          rcases ih _ _ p hp with h | h
          · rcases List.mem_append.1 h with h' | h'
            · exact Or.inl h'
            · simp only [List.mem_singleton] at h'
              subst h'
              exact Or.inr (List.mem_cons_self _ _)
          · exact Or.inr (List.mem_cons_of_mem _ h)
        · rw [if_neg hc] at hp
          rcases ih book cash p hp with h | h
          · exact Or.inl h
          · exact Or.inr (List.mem_cons_of_mem _ h)

theorem buyPass_notional_sum (prices : Sym → Option ℚ) (allocation : ℚ)
    (hal : 0 ≤ allocation) (syms : List Sym) :
    ∀ (book : List (Sym × ℤ)) (cash : ℚ),
      (((buyPass prices allocation syms book cash).2.2).map fun t =>
          (t.shares : ℚ) * t.price).sum ≤ (syms.length : ℚ) * allocation := by
  induction syms with
  | nil => intro book cash; simp [buyPass]
  | cons x rest ih =>
    intro book cash
    have hstep : ((rest.length : ℚ) * allocation) ≤ ((x :: rest).length : ℚ) * allocation := by
      have : (rest.length : ℚ) ≤ ((x :: rest).length : ℚ) := by
        rw [List.length_cons]
        push_cast
        linarith
      exact mul_le_mul_of_nonneg_right this hal
    rw [buyPass]
    cases hl : lookupSym book x with
    | some w => exact (ih book cash).trans hstep
    | none =>
      simp only
      by_cases hpr : (prices x).getD 0 = 0
      · rw [if_pos hpr]
        exact (ih book cash).trans hstep
      · rw [if_neg hpr]
        by_cases hc : 0 < pyInt (allocation / (prices x).getD 0) ∧
            (pyInt (allocation / (prices x).getD 0) : ℚ) * (prices x).getD 0 +
              (pyInt (allocation / (prices x).getD 0) : ℚ) * (prices x).getD 0 * BROKERAGE_RATE ≤ cash
        · rw [if_pos hc]
          simp only [List.map_cons, List.sum_cons, List.length_cons]
          have h1 : (pyInt (allocation / (prices x).getD 0) : ℚ) * (prices x).getD 0 ≤ allocation :=
            buy_notional_le hal hpr hc.1
          have h2 := ih (book ++ [(x, pyInt (allocation / (prices x).getD 0))])
            (cash - ((pyInt (allocation / (prices x).getD 0) : ℚ) * (prices x).getD 0 +
              (pyInt (allocation / (prices x).getD 0) : ℚ) * (prices x).getD 0 * BROKERAGE_RATE))
          push_cast
          linarith
        · rw [if_neg hc]
          exact (ih book cash).trans hstep



theorem cpv_split (selected : List Sym) (prices : Sym → Option ℚ) (book : List (Sym × ℤ)) :
    calculate_portfolio_value book prices
      = calculate_portfolio_value (book.filter fun p => decide (p.1 ∈ selected)) prices
        + ((book.filter fun p => decide (¬ p.1 ∈ selected)).map fun p =>
            (p.2 : ℚ) * ((prices p.1).getD 0)).sum := by
  induction book with
  | nil => simp [calculate_portfolio_value]
  | cons hd tl ih =>
    obtain ⟨s, sh⟩ := hd
    by_cases hs : s ∈ selected
    · cases h : prices s <;>
        simp [calculate_portfolio_value, hs, h, ih] <;> ring
    · cases h : prices s <;>
        simp [calculate_portfolio_value, hs, h, ih] <;> ring

theorem sum_map_sub {α : Type} (l : List α) (f g : α → ℚ) :
    (l.map fun a => f a - g a).sum = (l.map f).sum - (l.map g).sum := by
  induction l with
  | nil => simp
  | cons hd tl ih => simp [ih]; ring



theorem sum_map_add {α : Type} (l : List α) (f g : α → ℚ) :
    (l.map fun a => f a + g a).sum = (l.map f).sum + (l.map g).sum := by
  induction l with
  | nil => simp
  | cons hd tl ih => simp [ih]; ring

theorem runCycle_nav (isFriday : Bool) (selected : List Sym) (book : List (Sym × ℤ))
    (prices : Sym → Option ℚ) (capital : ℚ) :
    (runCycle isFriday selected book prices capital).nav
      = capital - totalFees (runCycle isFriday selected book prices capital).trades := by
  cases isFriday with
  | false => simp [runCycle, totalFees]
  | true =>
    simp only [runCycle, if_true]
    set cash0 := capital - calculate_portfolio_value book prices with hcash0
    set S := sellPass selected prices book cash0 with hS
    set B := buyPass prices (capital * (1 - MIN_CASH_BUFFER) / (MAX_STOCKS : ℚ)) selected S.1 S.2.1 with hB
    simp only [totalFees, List.map_append, List.sum_append]
    -- invested and cash after the buy pass
    rw [buyPass_invested, buyPass_cash, ← hB]
    -- the sell pass components
    rw [hS, sellPass_cash, sellPass_book, sellPass_trades]
    -- split the cost field sums
    have hbuycost : ((B.2.2.map fun t => (t.shares : ℚ) * t.price + t.cost)).sum
        = (B.2.2.map fun t => (t.shares : ℚ) * t.price).sum + (B.2.2.map fun t => t.cost).sum :=
      sum_map_add _ _ _
    have hsellcost :
        (((book.filter fun p => decide (¬ p.1 ∈ selected)).map fun p =>
            { symbol := p.1, action := "SELL", price := (prices p.1).getD 0, shares := p.2,
              cost := (p.2 : ℚ) * ((prices p.1).getD 0) * BROKERAGE_RATE : Trade }).map
          fun t => t.cost).sum
        = ((book.filter fun p => decide (¬ p.1 ∈ selected)).map fun p =>
            (p.2 : ℚ) * ((prices p.1).getD 0) * BROKERAGE_RATE).sum := by
      rw [List.map_map]
      rfl
    have hnet : ((book.filter fun p => decide (¬ p.1 ∈ selected)).map fun p =>
          (p.2 : ℚ) * ((prices p.1).getD 0) * (1 - BROKERAGE_RATE)).sum
        = ((book.filter fun p => decide (¬ p.1 ∈ selected)).map fun p =>
            (p.2 : ℚ) * ((prices p.1).getD 0)).sum
          - ((book.filter fun p => decide (¬ p.1 ∈ selected)).map fun p =>
              (p.2 : ℚ) * ((prices p.1).getD 0) * BROKERAGE_RATE).sum := by
      rw [← sum_map_sub]
      apply congrArg
      apply List.map_congr_left
      intro a _
      ring
    rw [hbuycost, hsellcost, hnet]
    have hsplit := cpv_split selected prices book
    rw [hcash0]
    linarith [hsplit]



theorem sellPass_trades_action (selected : List Sym) (prices : Sym → Option ℚ)
    (book : List (Sym × ℤ)) (cash : ℚ) :
    ∀ t ∈ (sellPass selected prices book cash).2.2, t.action = "SELL" := by
  intro t ht
  rw [sellPass_trades] at ht
  obtain ⟨p, _, hp⟩ := List.mem_map.1 ht
  rw [← hp]

theorem filter_buy_of_sell {ts : List Trade} (h : ∀ t ∈ ts, t.action = "SELL") :
    ts.filter (fun t => t.action == "BUY") = [] := by
  rw [List.filter_eq_nil]
  intro t ht
  rw [h t ht]
  decide

theorem filter_sell_of_sell {ts : List Trade} (h : ∀ t ∈ ts, t.action = "SELL") :
    ts.filter (fun t => t.action == "SELL") = ts := by
  rw [List.filter_eq_self]
  intro t ht
  rw [h t ht]
  decide

theorem filter_buy_of_buy {ts : List Trade} (h : ∀ t ∈ ts, t.action = "BUY") :
    ts.filter (fun t => t.action == "BUY") = ts := by
  rw [List.filter_eq_self]
  intro t ht
  rw [h t ht]
  decide

theorem filter_sell_of_buy {ts : List Trade} (h : ∀ t ∈ ts, t.action = "BUY") :
    ts.filter (fun t => t.action == "SELL") = [] := by
  rw [List.filter_eq_nil]
  intro t ht
  rw [h t ht]
  decide

theorem runCycle_cash (isFriday : Bool) (selected : List Sym) (book : List (Sym × ℤ))
    (prices : Sym → Option ℚ) (capital : ℚ) :
    (runCycle isFriday selected book prices capital).cash
      = (capital - calculate_portfolio_value book prices)
        - buySpend (runCycle isFriday selected book prices capital).trades
        + sellProceedsNet (runCycle isFriday selected book prices capital).trades := by
  cases isFriday with
  | false => simp [runCycle, buySpend, sellProceedsNet]
  | true =>
    simp only [runCycle, if_true]
    set cash0 := capital - calculate_portfolio_value book prices with hcash0
    set S := sellPass selected prices book cash0 with hS
    set B := buyPass prices (capital * (1 - MIN_CASH_BUFFER) / (MAX_STOCKS : ℚ)) selected S.1 S.2.1 with hB
    have hsellact : ∀ t ∈ S.2.2, t.action = "SELL" := by
      rw [hS]; exact sellPass_trades_action _ _ _ _
    have hbuyact : ∀ t ∈ B.2.2, t.action = "BUY" := by
      rw [hB]
      intro t ht
      exact (buyPass_trades_facts _ _ _ _ _ t ht).1
    simp only [buySpend, sellProceedsNet, List.filter_append, List.map_append, List.sum_append,
      filter_buy_of_sell hsellact, filter_buy_of_buy hbuyact,
      filter_sell_of_sell hsellact, filter_sell_of_buy hbuyact,
      List.map_nil, List.sum_nil]
    rw [buyPass_cash, ← hB]
    rw [hS, sellPass_cash, sellPass_trades]
    have hbuycost : ((B.2.2.map fun t => (t.shares : ℚ) * t.price + t.cost)).sum
        = (B.2.2.map fun t => (t.shares : ℚ) * t.price).sum + (B.2.2.map fun t => t.cost).sum :=
      sum_map_add _ _ _
    have hnetlist : (((book.filter fun p => decide (¬ p.1 ∈ selected)).map fun p =>
          { symbol := p.1, action := "SELL", price := (prices p.1).getD 0, shares := p.2,
            cost := (p.2 : ℚ) * ((prices p.1).getD 0) * BROKERAGE_RATE : Trade }).map
          fun t => (t.shares : ℚ) * t.price - t.cost).sum
        = ((book.filter fun p => decide (¬ p.1 ∈ selected)).map fun p =>
            (p.2 : ℚ) * ((prices p.1).getD 0) * (1 - BROKERAGE_RATE)).sum := by
      rw [List.map_map]
      apply congrArg
      apply List.map_congr_left
      intro a _
      simp only [Function.comp]
      ring
    rw [hbuycost, hnetlist]
    ring



/-- C2: the exit pass of a rebalance is fully characterised: the surviving
portfolio is exactly the held entries whose symbol is in the target set; for
every held entry whose symbol is not in the target set exactly one SELL row
is emitted (in book order) for the full share count at the current price
(`latest_prices.get(symbol, 0)`), with brokerage `shares*price*BROKERAGE_RATE`
recorded as its cost; and cash is credited with the net proceeds
`shares * price * (1 - BROKERAGE_RATE)` of each sale. -/
theorem c2_exit_pass_sells_all_unselected (selected : List Sym) (prices : Sym → Option ℚ)
    (book : List (Sym × ℤ)) (cash : ℚ) :
    sellPass selected prices book cash
      = (book.filter fun p => decide (p.1 ∈ selected),
         cash + ((book.filter fun p => decide (¬ p.1 ∈ selected)).map fun p =>
           (p.2 : ℚ) * ((prices p.1).getD 0) * (1 - BROKERAGE_RATE)).sum,
         (book.filter fun p => decide (¬ p.1 ∈ selected)).map fun p =>
           { symbol := p.1, action := "SELL", price := (prices p.1).getD 0, shares := p.2,
             cost := (p.2 : ℚ) * ((prices p.1).getD 0) * BROKERAGE_RATE }) := by
  refine Prod.ext ?_ (Prod.ext ?_ ?_)
  · exact sellPass_book selected prices book cash
  · exact sellPass_cash selected prices book cash
  · exact sellPass_trades selected prices book cash

/-- C5: cash conservation.  For every run (Friday or not), the final cash
equals the cash before the rebalance (`capital - invested_value`) minus the
total spent on BUY trades (notional plus brokerage) plus the total SELL
proceeds net of brokerage, exactly. -/
theorem c5_cash_conservation (isFriday : Bool) (selected : List Sym)
    (book : List (Sym × ℤ)) (prices : Sym → Option ℚ) (capital : ℚ) :
    (runCycle isFriday selected book prices capital).cash
      = (capital - calculate_portfolio_value book prices)
        - buySpend (runCycle isFriday selected book prices capital).trades
        + sellProceedsNet (runCycle isFriday selected book prices capital).trades :=
  runCycle_cash isFriday selected book prices capital

/-- C10: the NAV appended to the NAV history equals the previous recorded
NAV (or `INITIAL_CAPITAL` on the first run — that is `capitalOf`) minus the
total brokerage fees of the run's trades.  In particular a run with no
trades appends a NAV equal to the previous one; the recorded NAV never
reflects market price moves of the holdings between runs.  (Prices are exact
rationals here, matching the claim's hypothesis that every latest price used
is a valid number.) -/
theorem c10_nav_is_capital_minus_fees (isFriday : Bool) (selected : List Sym)
    (book : List (Sym × ℤ)) (prices : Sym → Option ℚ) (navHistory : List ℚ) :
    (runWithHistory isFriday selected book prices navHistory).2
      = navHistory
        ++ [capitalOf navHistory
            - totalFees (runWithHistory isFriday selected book prices navHistory).1.trades] := by
  simp only [runWithHistory]
  rw [runCycle_nav]



/-- Modelled from the spec: the RegimeGate trend filter — "current index
level > its trailing M-day (e.g. 200-day) moving average" on a benchmark
index series.  No such gate exists anywhere in the source: `main` consults
only `is_friday()` before rebalancing, and no benchmark series is ever
downloaded or tested. -/
def trendFilter (benchmark : List ℚ) : Bool :=
  decide (benchmark.getD (benchmark.length - 1) 0 > rollingMeanLast 200 benchmark)

/-- Modelled from the spec: the RegimeGate crash filter — "trailing return
over a fixed lookback (e.g. 3 months) ≥ a negative threshold (e.g. −12%)".
Also absent from the source. -/
def crashFilter (benchmark : List ℚ) : Bool :=
  decide (pctChangeLast 63 benchmark ≥ -(12 / 100))

set_option maxRecDepth 4000 in
/-- C3 counterexample: a benchmark in a confirmed downtrend and crash (price
halved: both spec-modelled regime filters are false), yet a Friday run still
emits a trade — the code has no regime gate, so the rebalance cannot
short-circuit on it. -/
theorem c3_counterexample_regime_ignored :
    trendFilter (flatSeries 100 50) = false ∧ crashFilter (flatSeries 100 50) = false ∧
      (runCycle true [] [("Y", 1)] (fun s => if s = "Y" then some 10 else none) 1000).trades
        ≠ [] := by
  refine ⟨?_, ?_, ?_⟩
  · have hlen : (flatSeries 100 50 : List ℚ).length = 200 := by simp [flatSeries]
    simp only [trendFilter, rollingMeanLast, flatSeries, List.getD, hlen]
    norm_num [List.getElem?_append, List.getElem?_replicate, List.drop_append_of_le_length,
      List.sum_append, List.sum_replicate, List.drop_replicate, nsmul_eq_mul]
  · have hlen : (flatSeries 100 50 : List ℚ).length = 200 := by simp [flatSeries]
    simp only [crashFilter, pctChangeLast, flatSeries, List.getD, hlen]
    norm_num [List.getElem?_append, List.getElem?_replicate, List.getElem_append,
      List.getElem_replicate]
  · norm_num [runCycle, sellPass, buyPass, pyInt, calculate_portfolio_value, lookupSym,
      MIN_CASH_BUFFER, MAX_STOCKS, BROKERAGE_RATE]

/-- C3 amended: the code's only rebalance gate is the Friday check — there
is no regime gate at all.  When it is not Friday the run emits exactly zero
trade intents and leaves the holdings unchanged (the notification then
carries the "Not Friday. No rebalance." line); on a Friday the rebalance
proceeds regardless of any market-regime condition (see the
counterexample). -/
theorem c3_amended_only_friday_gates (selected : List Sym) (book : List (Sym × ℤ))
    (prices : Sym → Option ℚ) (capital : ℚ) :
    (runCycle false selected book prices capital).trades = []
      ∧ (runCycle false selected book prices capital).portfolio = book := by
  constructor <;> simp [runCycle]



/-- Modelled from the spec: the coverage ratio — "fraction of universe
symbols returning usable data".  The source computes no such ratio and has
no minimum-coverage configuration: `main` uses whatever
`close_data.iloc[-1]` contains and never aborts on poor coverage. -/
def coverageRatio (univ : List Sym) (prices : Sym → Option ℚ) : ℚ :=
  ((univ.filter fun s => (prices s).isSome).length : ℚ) / (univ.length : ℚ)

/-- C8 counterexample: price data covers only 1 of 2 universe symbols
(ratio 1/2, below the spec's example minimum of 0.8), yet the Friday cycle
does not abort: it emits a SELL (at price 0, for the held symbol whose
price is missing), changes the position book, and appends to the NAV
history. -/
theorem c8_counterexample_no_coverage_abort :
    coverageRatio ["A", "B"] (fun s => if s = "A" then some 100 else none) = 1 / 2 ∧
      ((1 : ℚ) / 2 < 4 / 5) ∧
      (runWithHistory true [] [("B", 5)] (fun s => if s = "A" then some 100 else none) []).1.trades
        = [{ symbol := "B", action := "SELL", price := 0, shares := 5, cost := 0 }] ∧
      (runWithHistory true [] [("B", 5)] (fun s => if s = "A" then some 100 else none) []).1.portfolio
        = [] ∧
      (runWithHistory true [] [("B", 5)] (fun s => if s = "A" then some 100 else none) []).2
        ≠ [] := by
  refine ⟨?_, by norm_num, ?_, ?_, ?_⟩
  · norm_num +decide [coverageRatio, List.filter]
  · norm_num +decide [runWithHistory, capitalOf, INITIAL_CAPITAL, runCycle, sellPass, buyPass,
      calculate_portfolio_value, BROKERAGE_RATE]
  · norm_num +decide [runWithHistory, capitalOf, INITIAL_CAPITAL, runCycle, sellPass, buyPass,
      calculate_portfolio_value, BROKERAGE_RATE]
  · norm_num [runWithHistory]

/-- C8 amended: the code performs no coverage check at all — the cycle never
aborts on poor data coverage.  Every run appends exactly one record to the
NAV history, and a held, unselected symbol whose latest price is missing is
not protected: the exit pass sells it at price 0 (with zero proceeds and
zero recorded cost) instead of blocking the cycle. -/
theorem c8_amended_cycle_never_aborts (isFriday : Bool) (selected : List Sym)
    (book : List (Sym × ℤ)) (prices : Sym → Option ℚ) (navHistory : List ℚ) :
    ((runWithHistory isFriday selected book prices navHistory).2).length
        = navHistory.length + 1
      ∧ ∀ s sh cash, (s, sh) ∈ book → ¬ s ∈ selected → prices s = none →
          { symbol := s, action := "SELL", price := 0, shares := sh, cost := 0 : Trade }
            ∈ (sellPass selected prices book cash).2.2 := by
  constructor
  · simp [runWithHistory]
  · intro s sh cash hmem hsel hnone
    rw [sellPass_trades]
    refine List.mem_map.2 ⟨(s, sh), ?_, ?_⟩
    · rw [List.mem_filter]
      exact ⟨hmem, by simpa using hsel⟩
    · simp [hnone]



/-- C8 amended, witness: concrete instance — a run over a book holding only
"B" with no price data appends one NAV record and sells "B" at price 0. -/
theorem c8_amended_witness :
    (((runWithHistory true [] [("B", 5)] (fun _ => none) []).2).length = 0 + 1)
      ∧ { symbol := "B", action := "SELL", price := 0, shares := 5, cost := 0 : Trade }
          ∈ (sellPass [] (fun _ => none) [("B", 5)] 0).2.2 := by
  obtain ⟨h1, h2⟩ := c8_amended_cycle_never_aborts true [] [("B", 5)] (fun _ => none) []
  exact ⟨by simpa using h1, h2 "B" 5 0 (by simp) (by simp) rfl⟩



/-- Modelled from the spec: pyramided-add eligibility for a held target
symbol — "add_count < MAX_ADDS AND current price > average_cost AND
shares × price < base_allocation_per_slot × MAX_POSITION_MULTIPLIER".
The source tracks neither `average_cost` nor `add_count` (the portfolio
stores only share counts) and defines no `MAX_ADDS` or
`MAX_POSITION_MULTIPLIER`; no add path exists. -/
def specAddEligible (addCount maxAdds : ℕ) (price avgCost : ℚ) (shares : ℤ)
    (allocation maxMult : ℚ) : Prop :=
  addCount < maxAdds ∧ avgCost < price ∧ (shares : ℚ) * price < allocation * maxMult

/-- C4 counterexample: a held target symbol satisfying every spec-side add
condition (add_count 0 < MAX_ADDS 2, price 100 > average cost 50, position
value 1000 < allocation 9000 × multiplier 2) receives no ADD intent: the
Friday run emits zero trades and leaves the entry untouched, because the
code's buy pass skips any symbol already in the portfolio. -/
theorem c4_counterexample_no_add_emitted :
    specAddEligible 0 2 100 50 10 (50000 * (1 - MIN_CASH_BUFFER) / (MAX_STOCKS : ℚ)) 2 ∧
      (runCycle true ["A"] [("A", 10)] (fun s => if s = "A" then some 100 else none)
          50000).trades = [] ∧
      (runCycle true ["A"] [("A", 10)] (fun s => if s = "A" then some 100 else none)
          50000).portfolio = [("A", 10)] := by
  refine ⟨?_, ?_, ?_⟩
  · refine ⟨by norm_num, by norm_num, ?_⟩
    norm_num [MIN_CASH_BUFFER, MAX_STOCKS]
  · norm_num +decide [runCycle, sellPass, buyPass, pyInt, calculate_portfolio_value, lookupSym,
      MIN_CASH_BUFFER, MAX_STOCKS, BROKERAGE_RATE]
  · norm_num +decide [runCycle, sellPass, buyPass, pyInt, calculate_portfolio_value, lookupSym,
      MIN_CASH_BUFFER, MAX_STOCKS, BROKERAGE_RATE]

/-- C4 amended: the code implements no pyramiding.  A target symbol already
held generates no trade intent of any kind and its book entry is unchanged
by the run, regardless of price versus cost basis or any add limit (neither
of which the code even records). -/
theorem c4_amended_held_targets_untouched (selected : List Sym) (book : List (Sym × ℤ))
    (prices : Sym → Option ℚ) (capital : ℚ) (s : Sym) (sh : ℤ)
    (hsel : s ∈ selected) (hheld : lookupSym book s = some sh) :
    lookupSym (runCycle true selected book prices capital).portfolio s = some sh
      ∧ ∀ t ∈ (runCycle true selected book prices capital).trades, t.symbol ≠ s := by
  simp only [runCycle, if_true]
  set cash0 := capital - calculate_portfolio_value book prices with hcash0
  have hbook1 : lookupSym (sellPass selected prices book cash0).1 s = some sh := by
    rw [sellPass_book]
    clear hcash0
    induction book with
    | nil => simp [lookupSym] at hheld
    | cons hd tl ih =>
      obtain ⟨k, v⟩ := hd
      by_cases hk : k = s
      · subst hk
        simp only [lookupSym, if_pos rfl, if_true, Option.some.injEq] at hheld
        simp [List.filter_cons, hsel, lookupSym, hheld]
      · simp only [lookupSym, if_neg hk] at hheld
        by_cases hks : k ∈ selected <;>
          simp [List.filter_cons, hks, lookupSym, hk, ih hheld]
  obtain ⟨hkeep, hnobuy⟩ := buyPass_held prices (capital * (1 - MIN_CASH_BUFFER) / (MAX_STOCKS : ℚ))
    selected _ _ s sh hbook1
  refine ⟨hkeep, ?_⟩
  intro t ht
  rcases List.mem_append.1 ht with hts | htb
  · rw [sellPass_trades] at hts
    obtain ⟨p, hpmem, hpt⟩ := List.mem_map.1 hts
    rw [List.mem_filter] at hpmem
    intro he
    rw [← hpt] at he
    simp only at he
    rw [he] at hpmem
    have := hpmem.2
    simp at this
    exact this hsel
  · exact hnobuy t htb

/-- C4 amended, witness: the concrete held target of the counterexample
setup keeps its entry and receives no trade. -/
theorem c4_amended_witness :
    lookupSym (runCycle true ["A"] [("A", 10)]
        (fun s => if s = "A" then some 100 else none) 50000).portfolio "A" = some 10
      ∧ ∀ t ∈ (runCycle true ["A"] [("A", 10)]
          (fun s => if s = "A" then some 100 else none) 50000).trades, t.symbol ≠ "A" :=
  c4_amended_held_targets_untouched ["A"] [("A", 10)]
    (fun s => if s = "A" then some 100 else none) 50000 "A" 10
    (by simp) (by simp [lookupSym])



/-- C1 counterexample: with capital 10000 and one selected unheld symbol "X"
priced 100, the claim's sizing `floor((capital / K) / price) = floor(2000/100)
= 20` is wrong: the code allocates `capital * (1 - MIN_CASH_BUFFER) / K =
1800` per slot and buys 18 shares, not 20. -/
theorem c1_counterexample_allocation_formula :
    (runCycle true ["X"] [] (fun s => if s = "X" then some 100 else none) 10000).trades
        = [{ symbol := "X", action := "BUY", price := 100, shares := 18, cost := 18/10 }]
      ∧ (18 : ℤ) ≠ ⌊(10000 / (MAX_STOCKS : ℚ)) / 100⌋ := by
  constructor
  · norm_num +decide [runCycle, sellPass, buyPass, pyInt, calculate_portfolio_value, lookupSym,
      MIN_CASH_BUFFER, MAX_STOCKS, BROKERAGE_RATE]
  · norm_num [MAX_STOCKS]

/-- C1 amended: per-slot sizing uses `capital * (1 - MIN_CASH_BUFFER) /
MAX_STOCKS`, not `capital / K`.  For a selected symbol not currently held
whose latest price is positive, with `q = int(allocation / price)` (equal to
the floor for the positive arguments at issue), the buy step emits a BUY of
`q` shares — creating the position at the end of the book and debiting cash
by `q * price * (1 + BROKERAGE_RATE)` — if and only if `q > 0` and that
debit does not exceed the cash available when the symbol is processed;
otherwise it leaves the state unchanged and moves on. -/
theorem c1_amended_buy_rule (prices : Sym → Option ℚ) (capital : ℚ) (s : Sym)
    (rest : List Sym) (book : List (Sym × ℤ)) (cash : ℚ) (p : ℚ)
    (hheld : lookupSym book s = none) (hp : prices s = some p) (hppos : 0 < p) :
    buyPass prices (capital * (1 - MIN_CASH_BUFFER) / (MAX_STOCKS : ℚ)) (s :: rest) book cash
      = (if 0 < pyInt (capital * (1 - MIN_CASH_BUFFER) / (MAX_STOCKS : ℚ) / p) ∧
            (pyInt (capital * (1 - MIN_CASH_BUFFER) / (MAX_STOCKS : ℚ) / p) : ℚ) * p
              * (1 + BROKERAGE_RATE) ≤ cash
         then
           let q := pyInt (capital * (1 - MIN_CASH_BUFFER) / (MAX_STOCKS : ℚ) / p)
           let r := buyPass prices (capital * (1 - MIN_CASH_BUFFER) / (MAX_STOCKS : ℚ)) rest
             (book ++ [(s, q)]) (cash - (q : ℚ) * p * (1 + BROKERAGE_RATE))
           (r.1, r.2.1,
             { symbol := s, action := "BUY", price := p, shares := q,
               cost := (q : ℚ) * p * BROKERAGE_RATE } :: r.2.2)
         else buyPass prices (capital * (1 - MIN_CASH_BUFFER) / (MAX_STOCKS : ℚ)) rest book cash) := by
  set al := capital * (1 - MIN_CASH_BUFFER) / (MAX_STOCKS : ℚ) with hal
  rw [buyPass, hheld]
  simp only [hp, Option.getD_some]
  rw [if_neg (ne_of_gt hppos)]
  have hcost : ∀ q : ℤ, (q : ℚ) * p + (q : ℚ) * p * BROKERAGE_RATE
      = (q : ℚ) * p * (1 + BROKERAGE_RATE) := by
    intro q
    ring
  rw [hcost]



/-- C1 amended, witness: the buy rule applied at a concrete state — empty
book, constant price 100, capital 10000 — where the condition holds and a
BUY of 18 shares results. -/
theorem c1_amended_witness :
    lookupSym [] "X" = none ∧ (0 : ℚ) < 100 ∧
      buyPass (fun _ => some 100) (10000 * (1 - MIN_CASH_BUFFER) / (MAX_STOCKS : ℚ))
          ["X"] [] 10000
        = (if 0 < pyInt (10000 * (1 - MIN_CASH_BUFFER) / (MAX_STOCKS : ℚ) / 100) ∧
              (pyInt (10000 * (1 - MIN_CASH_BUFFER) / (MAX_STOCKS : ℚ) / 100) : ℚ) * 100
                * (1 + BROKERAGE_RATE) ≤ 10000
           then
             let q := pyInt (10000 * (1 - MIN_CASH_BUFFER) / (MAX_STOCKS : ℚ) / 100)
             let r := buyPass (fun _ => some 100)
               (10000 * (1 - MIN_CASH_BUFFER) / (MAX_STOCKS : ℚ)) []
               ([] ++ [("X", q)]) (10000 - (q : ℚ) * 100 * (1 + BROKERAGE_RATE))
             (r.1, r.2.1,
               { symbol := "X", action := "BUY", price := 100, shares := q,
                 cost := (q : ℚ) * 100 * BROKERAGE_RATE } :: r.2.2)
           else buyPass (fun _ => some 100)
             (10000 * (1 - MIN_CASH_BUFFER) / (MAX_STOCKS : ℚ)) [] [] 10000) :=
  ⟨rfl, by norm_num,
    c1_amended_buy_rule (fun _ => some 100) 10000 "X" [] [] 10000 100 rfl rfl (by norm_num)⟩



/-- C7 counterexample: a held position worth 5000 at current prices against
a carried-over capital of only 1000 (prices rose since the NAV was recorded)
is sold in full on a Friday where it is no longer selected; the single SELL
intent's notional (5000) plus the minimum cash buffer (10% of capital)
exceeds the starting capital by a factor of five. -/
theorem c7_counterexample_notional_exceeds_capital :
    totalNotional (runCycle true [] [("X", 100)]
        (fun s => if s = "X" then some 50 else none) 1000).trades
      + MIN_CASH_BUFFER * 1000 > 1000 := by
  norm_num +decide [runCycle, sellPass, buyPass, totalNotional, calculate_portfolio_value,
    MIN_CASH_BUFFER, MAX_STOCKS, BROKERAGE_RATE]

/-- C7 amended: the capital bound holds for the BUY side only.  For a Friday
run with non-negative capital and at most `MAX_STOCKS` selected symbols
(as `select_stocks` guarantees), the sum of BUY intents' notional plus the
minimum cash buffer (`MIN_CASH_BUFFER * capital`) never exceeds capital, and
every emitted intent has positive quantity provided every held position has
positive shares (SELL quantity equals the held share count; BUY quantity is
positive by construction).  SELL notionals are bounded by no such cap, as
the counterexample shows. -/
theorem c7_amended_buy_notional_capped (selected : List Sym) (book : List (Sym × ℤ))
    (prices : Sym → Option ℚ) (capital : ℚ)
    (hcap : 0 ≤ capital) (hlen : selected.length ≤ MAX_STOCKS)
    (hsh : ∀ q ∈ book, 0 < q.2) :
    buyNotionalTotal (runCycle true selected book prices capital).trades
        + MIN_CASH_BUFFER * capital ≤ capital
      ∧ ∀ t ∈ (runCycle true selected book prices capital).trades, 0 < t.shares := by
  simp only [runCycle, if_true]
  set cash0 := capital - calculate_portfolio_value book prices with hcash0
  set al := capital * (1 - MIN_CASH_BUFFER) / (MAX_STOCKS : ℚ) with hal
  set S := sellPass selected prices book cash0 with hS
  set B := buyPass prices al selected S.1 S.2.1 with hB
  have hsellact : ∀ t ∈ S.2.2, t.action = "SELL" := by
    rw [hS]; exact sellPass_trades_action _ _ _ _
  have hbuyact : ∀ t ∈ B.2.2, t.action = "BUY" := by
    rw [hB]; intro t ht; exact (buyPass_trades_facts _ _ _ _ _ t ht).1
  have halpos : 0 ≤ al := by
    rw [hal, MIN_CASH_BUFFER]
    positivity
  constructor
  · simp only [buyNotionalTotal, List.filter_append, List.map_append, List.sum_append,
      filter_buy_of_sell hsellact, filter_buy_of_buy hbuyact, List.map_nil, List.sum_nil,
      zero_add]
    have h1 : ((B.2.2).map fun t => (t.shares : ℚ) * t.price).sum
        ≤ (selected.length : ℚ) * al := by
      rw [hB]; exact buyPass_notional_sum prices al halpos selected _ _
    have h2 : (selected.length : ℚ) * al ≤ (MAX_STOCKS : ℚ) * al := by
      apply mul_le_mul_of_nonneg_right _ halpos
      exact_mod_cast hlen
    have h3 : (MAX_STOCKS : ℚ) * al = capital * (1 - MIN_CASH_BUFFER) := by
      rw [hal, MAX_STOCKS]
      push_cast
      ring
    have h4 : capital * (1 - MIN_CASH_BUFFER) + MIN_CASH_BUFFER * capital = capital := by
      ring
    linarith
  · intro t ht
    rcases List.mem_append.1 ht with hts | htb
    · rw [hS, sellPass_trades] at hts
      obtain ⟨p, hpmem, hpt⟩ := List.mem_map.1 hts
      rw [List.mem_filter] at hpmem
      rw [← hpt]
      exact hsh p hpmem.1
    · rw [hB] at htb
      exact (buyPass_trades_facts _ _ _ _ _ t htb).2.1

/-- C7 amended, witness: a concrete affordable run — one sale, one buy —
where the BUY notional (180) plus the buffer (100) stays within the capital
of 1000 and every trade has positive quantity. -/
theorem c7_amended_witness :
    ((0 : ℚ) ≤ 1000 ∧ (["Y"] : List Sym).length ≤ MAX_STOCKS ∧
      ∀ q ∈ [(("H" : Sym), (2 : ℤ))], 0 < q.2) ∧
    (buyNotionalTotal (runCycle true ["Y"] [("H", 2)]
        (fun s => if s = "H" then some 100 else if s = "Y" then some 90 else none) 1000).trades
      + MIN_CASH_BUFFER * 1000 ≤ 1000
    ∧ ∀ t ∈ (runCycle true ["Y"] [("H", 2)]
        (fun s => if s = "H" then some 100 else if s = "Y" then some 90 else none) 1000).trades,
        0 < t.shares) := by
  refine ⟨⟨by norm_num, by norm_num [MAX_STOCKS], by simp⟩, ?_⟩
  exact c7_amended_buy_notional_capped ["Y"] [("H", 2)]
    (fun s => if s = "H" then some 100 else if s = "Y" then some 90 else none) 1000
    (by norm_num) (by norm_num [MAX_STOCKS]) (by simp)



/-- C9 counterexample: rebalancing is NOT idempotent.  First run (capital
1000, book H:1 at 819.81 and S:20 at 1, targets [H, Y], price Y = 90): S is
sold (fee 0.02), leaving cash 180.17, and the buy of 2 Y shares (cost
180.18 at allocation 180) is skipped by 0.01.  The NAV drops to 999.98, so
the second run — same resulting book, same targets, same prices — has
allocation 179.9964, computes 1 share instead of 2, and now BUYS Y: one
additional trade intent. -/
theorem c9_counterexample_second_run_buys :
    (runCycle true ["H", "Y"]
        (runCycle true ["H", "Y"] [("H", 1), ("S", 20)]
          (fun s => if s = "H" then some (81981 / 100) else if s = "S" then some 1
            else if s = "Y" then some 90 else none) 1000).portfolio
        (fun s => if s = "H" then some (81981 / 100) else if s = "S" then some 1
          else if s = "Y" then some 90 else none)
        (runCycle true ["H", "Y"] [("H", 1), ("S", 20)]
          (fun s => if s = "H" then some (81981 / 100) else if s = "S" then some 1
            else if s = "Y" then some 90 else none) 1000).nav).trades
      = [{ symbol := "Y", action := "BUY", price := 90, shares := 1, cost := 9 / 100 }] := by
  norm_num +decide [runCycle, sellPass, buyPass, pyInt, calculate_portfolio_value, lookupSym,
    MIN_CASH_BUFFER, MAX_STOCKS, BROKERAGE_RATE]

/-- C9 amended: immediately re-running the rebalance (same targets and
prices, on the book the first run produced, with any carried-over capital)
emits no SELL intent — every surviving symbol is in the target set — but it
may emit additional BUY intents, because brokerage fees lower the NAV and
hence the per-slot allocation, which can change the computed quantity and
make a previously skipped buy affordable (see the counterexample).  So every
second-run trade, if any, is a BUY. -/
theorem c9_amended_second_run_only_buys (selected : List Sym) (book : List (Sym × ℤ))
    (prices : Sym → Option ℚ) (capital capital' : ℚ) :
    ∀ t ∈ (runCycle true selected
        (runCycle true selected book prices capital).portfolio prices capital').trades,
      t.action = "BUY" := by
  have hkeys : ∀ p ∈ (runCycle true selected book prices capital).portfolio,
      p.1 ∈ selected := by
    intro p hp
    simp only [runCycle, if_true] at hp
    rcases buyPass_book_mem prices _ selected _ _ p hp with hmem | hmem
    · rw [sellPass_book] at hmem
      rw [List.mem_filter] at hmem
      simpa using hmem.2
    · exact hmem
  set P1 := (runCycle true selected book prices capital).portfolio with hP1
  intro t ht
  simp only [runCycle, if_true] at ht
  rw [List.mem_append] at ht
  rcases ht with hts | htb
  · exfalso
    rw [sellPass_trades] at hts
    have hnil : (P1.filter fun p => decide (¬ p.1 ∈ selected)) = [] := by
      rw [List.filter_eq_nil]
      intro p hp
      simpa using hkeys p hp
    rw [hnil] at hts
    simp at hts
  · exact (buyPass_trades_facts _ _ _ _ _ t htb).1

/-- C9 amended, witness: the one second-run trade of the counterexample
state is indeed a BUY. -/
theorem c9_amended_witness :
    (Trade.mk "Y" "BUY" 90 1 (9 / 100)
        ∈ (runCycle true ["H", "Y"]
            (runCycle true ["H", "Y"] [("H", 1), ("S", 20)]
              (fun s => if s = "H" then some (81981 / 100) else if s = "S" then some 1
                else if s = "Y" then some 90 else none) 1000).portfolio
            (fun s => if s = "H" then some (81981 / 100) else if s = "S" then some 1
              else if s = "Y" then some 90 else none)
            (runCycle true ["H", "Y"] [("H", 1), ("S", 20)]
              (fun s => if s = "H" then some (81981 / 100) else if s = "S" then some 1
                else if s = "Y" then some 90 else none) 1000).nav).trades)
      ∧ ({ symbol := "Y", action := "BUY", price := 90, shares := 1,
            cost := 9 / 100 : Trade }).action = "BUY" := by
  have hmem : Trade.mk "Y" "BUY" 90 1 (9 / 100)
      ∈ (runCycle true ["H", "Y"]
          (runCycle true ["H", "Y"] [("H", 1), ("S", 20)]
            (fun s => if s = "H" then some (81981 / 100) else if s = "S" then some 1
              else if s = "Y" then some 90 else none) 1000).portfolio
          (fun s => if s = "H" then some (81981 / 100) else if s = "S" then some 1
            else if s = "Y" then some 90 else none)
          (runCycle true ["H", "Y"] [("H", 1), ("S", 20)]
            (fun s => if s = "H" then some (81981 / 100) else if s = "S" then some 1
              else if s = "Y" then some 90 else none) 1000).nav).trades := by
    norm_num +decide [runCycle, sellPass, buyPass, pyInt, calculate_portfolio_value, lookupSym,
      MIN_CASH_BUFFER, MAX_STOCKS, BROKERAGE_RATE]
  exact ⟨hmem, c9_amended_second_run_only_buys ["H", "Y"] [("H", 1), ("S", 20)]
    (fun s => if s = "H" then some (81981 / 100) else if s = "S" then some 1
      else if s = "Y" then some 90 else none) 1000 _ _ hmem⟩



theorem insertDesc_mem (x p : Sym × ℚ) (l : List (Sym × ℚ)) :
    p ∈ insertDesc x l ↔ p = x ∨ p ∈ l := by
  induction l with
  | nil => simp [insertDesc]
  | cons y ys ih =>
    by_cases h : x.2 < y.2
    · simp only [insertDesc, if_pos h, List.mem_cons, ih]
      tauto
    · simp only [insertDesc, if_neg h, List.mem_cons]

theorem insertDesc_length (x : Sym × ℚ) (l : List (Sym × ℚ)) :
    (insertDesc x l).length = l.length + 1 := by
  induction l with
  | nil => simp [insertDesc]
  | cons y ys ih =>
    by_cases h : x.2 < y.2
    · simp [insertDesc, if_pos h, ih]
    · simp [insertDesc, if_neg h]

theorem insertDesc_pairwise (x : Sym × ℚ) (l : List (Sym × ℚ))
    (hl : List.Pairwise (fun a b : Sym × ℚ => b.2 ≤ a.2) l) :
    List.Pairwise (fun a b : Sym × ℚ => b.2 ≤ a.2) (insertDesc x l) := by
  induction l with
  | nil => simp [insertDesc]
  | cons y ys ih =>
    rcases List.pairwise_cons.1 hl with ⟨hy, hys⟩
    by_cases h : x.2 < y.2
    · rw [insertDesc, if_pos h]
      rw [List.pairwise_cons]
      refine ⟨?_, ih hys⟩
      intro p hp
      rcases (insertDesc_mem x p ys).1 hp with hpx | hpy
      · rw [hpx]
        exact le_of_lt h
      · exact hy p hpy
    · rw [insertDesc, if_neg h]
      rw [List.pairwise_cons]
      refine ⟨?_, hl⟩
      intro p hp
      rcases List.mem_cons.1 hp with hpy | hpy
      · rw [hpy]
        exact le_of_not_lt h
      · exact le_trans (hy p hpy) (le_of_not_lt h)

theorem sortDesc_pairwise (l : List (Sym × ℚ)) :
    List.Pairwise (fun a b : Sym × ℚ => b.2 ≤ a.2) (sortDesc l) := by
  induction l with
  | nil => simp [sortDesc]
  | cons x xs ih => exact insertDesc_pairwise x _ ih

theorem sortDesc_mem (l : List (Sym × ℚ)) (p : Sym × ℚ) :
    p ∈ sortDesc l ↔ p ∈ l := by
  induction l with
  | nil => simp [sortDesc]
  | cons x xs ih =>
    show p ∈ insertDesc x (sortDesc xs) ↔ _
    rw [insertDesc_mem, ih, List.mem_cons]

theorem sortDesc_length (l : List (Sym × ℚ)) :
    (sortDesc l).length = l.length := by
  induction l with
  | nil => simp [sortDesc]
  | cons x xs ih =>
    show (insertDesc x (sortDesc xs)).length = _
    rw [insertDesc_length, ih, List.length_cons]



theorem scoredList_mem (data : List (Sym × Option (List ℚ))) (s : Sym) (sc : ℚ) :
    (s, sc) ∈ scoredList data ↔ ∃ close, (s, some close) ∈ data ∧ scoreStock close = some sc := by
  constructor
  · intro h
    obtain ⟨a, ha, hfa⟩ := List.mem_filterMap.1 h
    obtain ⟨s', oc⟩ := a
    cases oc with
    | none => simp at hfa
    | some close =>
      simp only [Option.map_eq_some'] at hfa
      obtain ⟨x, hx, heq⟩ := hfa
      obtain ⟨h1, h2⟩ := Prod.mk.injEq .. ▸ heq
      refine ⟨close, ?_, ?_⟩
      · rw [← h1]
        exact ha
      · rw [h2] at hx
        exact hx
  · rintro ⟨close, hmem, hsc⟩
    exact List.mem_filterMap.2 ⟨(s, some close), hmem, by simp [hsc]⟩

theorem scoreStock_eq_some (close : List ℚ) (sc : ℚ) :
    scoreStock close = some sc ↔
      (200 ≤ close.length ∧
        close.getD (close.length - 1) 0 > rollingMeanLast 200 close ∧
        rollingMeanLast 50 close > rollingMeanLast 200 close ∧
        pctChangeLast 63 close > 0 ∧ pctChangeLast 126 close > 0 ∧
        sc = pctChangeLast 63 close + pctChangeLast 126 close) := by
  simp only [scoreStock, calculate_momentum, calculate_dma]
  by_cases hlen : close.length < 200
  · rw [if_pos hlen]
    simp [Nat.lt_iff_add_one_le]
    omega
  · rw [if_neg hlen]
    have h200 : 200 ≤ close.length := Nat.le_of_not_lt hlen
    by_cases hcond : close.getD (close.length - 1) 0 > rollingMeanLast 200 close ∧
        rollingMeanLast 50 close > rollingMeanLast 200 close ∧
        pctChangeLast 63 close > 0 ∧ pctChangeLast 126 close > 0
    · rw [if_pos hcond]
      simp only [Option.some.injEq]
      constructor
      · intro h
        exact ⟨h200, hcond.1, hcond.2.1, hcond.2.2.1, hcond.2.2.2, h.symm⟩
      · intro h
        exact h.2.2.2.2.2.symm
    · rw [if_neg hcond]
      refine ⟨fun h => ?_, fun h => ?_⟩
      · simp at h
      · exact absurd ⟨h.2.1, h.2.2.1, h.2.2.2.1, h.2.2.2.2.1⟩ hcond



/-- C6: `select_stocks` returns the top-`MAX_STOCKS` symbols of the scored
universe, ranked in (weakly) descending order of the composite score
`m3 + m6`: (i) by definition the output is the head of a descending stable
sort of the scored list; (ii) that sort is pairwise descending and reorders
the scored list (same members); (iii) the output length is
`min MAX_STOCKS (number of passing symbols)` — no padding; (iv) every
returned symbol comes with data passing the filter; (v) when at most
`MAX_STOCKS` symbols pass, every passing symbol is returned; (vi) a symbol
passes (`scoreStock = some score`) iff it has at least 200 trading days of
(dropna'd) history, price above the 200-day average, 50-day average above
the 200-day average, and both momentum terms positive, the score being
their sum.  Symbols with missing data or short history are silently
excluded by construction of `scoredList`. -/
theorem c6_selection_top_k (data : List (Sym × Option (List ℚ))) :
    select_stocks data = ((sortDesc (scoredList data)).take MAX_STOCKS).map Prod.fst
      ∧ List.Pairwise (fun a b : Sym × ℚ => b.2 ≤ a.2) (sortDesc (scoredList data))
      ∧ (∀ p, p ∈ sortDesc (scoredList data) ↔ p ∈ scoredList data)
      ∧ (select_stocks data).length = min MAX_STOCKS (scoredList data).length
      ∧ (∀ s, s ∈ select_stocks data →
          ∃ close sc, (s, some close) ∈ data ∧ scoreStock close = some sc)
      ∧ ((scoredList data).length ≤ MAX_STOCKS →
          ∀ s close sc, (s, some close) ∈ data → scoreStock close = some sc →
            s ∈ select_stocks data)
      ∧ (∀ close sc, scoreStock close = some sc ↔
          (200 ≤ close.length ∧
            close.getD (close.length - 1) 0 > rollingMeanLast 200 close ∧
            rollingMeanLast 50 close > rollingMeanLast 200 close ∧
            pctChangeLast 63 close > 0 ∧ pctChangeLast 126 close > 0 ∧
            sc = pctChangeLast 63 close + pctChangeLast 126 close)) := by
  refine ⟨rfl, sortDesc_pairwise _, sortDesc_mem _, ?_, ?_, ?_, scoreStock_eq_some⟩
  · rw [select_stocks, List.length_map, List.length_take, sortDesc_length]
  · intro s hs
    rw [select_stocks] at hs
    obtain ⟨p, hp, hps⟩ := List.mem_map.1 hs
    have hp2 : p ∈ sortDesc (scoredList data) := List.mem_of_mem_take hp
    rw [sortDesc_mem] at hp2
    obtain ⟨s', sc⟩ := p
    obtain ⟨close, hmem, hsc⟩ := (scoredList_mem data s' sc).1 hp2
    subst hps
    exact ⟨close, sc, hmem, hsc⟩
  · intro hlen s close sc hmem hsc
    have hmem2 : (s, sc) ∈ scoredList data := (scoredList_mem data s sc).2 ⟨close, hmem, hsc⟩
    rw [select_stocks]
    have htake : (sortDesc (scoredList data)).take MAX_STOCKS = sortDesc (scoredList data) := by
      apply List.take_of_length_le
      rw [sortDesc_length]
      exact hlen
    rw [htake]
    refine List.mem_map.2 ⟨(s, sc), ?_, rfl⟩
    rw [sortDesc_mem]
    exact hmem2



/-- C6, witness: on a concrete universe — two passing symbols ("A" scoring
0.4, "B" scoring 0.8), one with only 150 days of history, one with no data —
fewer than `MAX_STOCKS` pass, and the passing symbol "A" is returned. -/
theorem c6_selection_witness :
    (scoredList [("A", some (flatSeries 10 12)), ("B", some (flatSeries 10 14)),
        ("C", some (List.replicate 150 10)), ("D", none)]).length ≤ MAX_STOCKS ∧
      "A" ∈ select_stocks [("A", some (flatSeries 10 12)), ("B", some (flatSeries 10 14)),
        ("C", some (List.replicate 150 10)), ("D", none)] := by
  have hC : scoreStock (List.replicate 150 (10 : ℚ)) = none := by simp [scoreStock]
  have hA : scoreStock (flatSeries 10 12) = some (2 / 5) := by
    rw [scoreStock_flatSeries]
    norm_num
  have hB : scoreStock (flatSeries 10 14) = some (4 / 5) := by
    rw [scoreStock_flatSeries]
    norm_num
  have hlen : (scoredList [("A", some (flatSeries 10 12)), ("B", some (flatSeries 10 14)),
      ("C", some (List.replicate 150 10)), ("D", none)]).length ≤ MAX_STOCKS := by
    simp only [scoredList, List.filterMap_cons, List.filterMap_nil, hA, hB, hC]
    simp [MAX_STOCKS]
  refine ⟨hlen, ?_⟩
  exact (c6_selection_top_k _).2.2.2.2.2.1 hlen "A" (flatSeries 10 12) (2 / 5)
    (by simp) hA

end Astikar
